import Mathlib

/-!
Shallow embedding of `src/pdf_parser.rs` from the burocratin repository:
a PDF page-content text-extraction engine.  Rust strings are modelled as
lists of Unicode scalar values (`List Nat`), byte strings as lists of
byte values, `HashMap<u16, String>` as an association list where a fresh
insert is prepended and lookup returns the most recent binding, and
panicking operations (`unwrap`, `expect`, indexing) as `Option`-valued
functions returning `none` on the panicking path.  Integer overflow of
the `u8` increment in the bfrange loop is modelled with release-build
semantics (wrap modulo 256), matching the spec's description that
overflow of the last byte is not propagated.
-/

namespace PdfParser

/-- A Rust `String` contents: the sequence of Unicode scalar values. -/
abbrev Text := List Nat

/-! ### `utf16be_to_string` (pdf_parser.rs lines 80-85)

`utf16_chars::<BE>` pairs up the bytes big-endian into 16-bit units and
decodes UTF-16, `.map(|c| c.unwrap())` panics on a decoding error
(odd trailing byte or unpaired surrogate). -/

/-- Pair up a byte list into big-endian 16-bit units; `none` when a lone
trailing byte remains (the reader hits EOF mid-unit and `unwrap` panics). -/
def toU16s : List Nat → Option (List Nat)
  | [] => some []
  | [_] => none
  | a :: b :: rest => (toU16s rest).map (fun us => (a * 256 + b) :: us)

/-- Decode a list of 16-bit units as UTF-16 into Unicode scalar values;
`none` on an unpaired surrogate (the iterator yields `Err` and `unwrap`
panics). -/
def decodeUtf16 : List Nat → Option (List Nat)
  | [] => some []
  | u :: rest =>
    if u < 0xD800 ∨ 0xDFFF < u then
      (decodeUtf16 rest).map (fun cs => u :: cs)
    else if u ≤ 0xDBFF then
      match rest with
      | [] => none
      | l :: rest' =>
        if 0xDC00 ≤ l ∧ l ≤ 0xDFFF then
          (decodeUtf16 rest').map
            (fun cs => (0x10000 + (u - 0xD800) * 0x400 + (l - 0xDC00)) :: cs)
        else none
    else none

/-- `utf16be_to_string`: UTF-16BE decode of a byte string, `none` when the
Rust code would panic. -/
def utf16be_to_string (data : List Nat) : Option Text :=
  (toU16s data).bind decodeUtf16

/-! ### The CMap (`HashMap<u16, String>`) -/

/-- The decoded CMap.  Inserts prepend; lookup takes the most recent
binding, so a later insert for the same code overrides an earlier one,
as with `HashMap::insert`. -/
abbrev Cmap := List (Nat × Text)

def insertMap (m : Cmap) (k : Nat) (v : Text) : Cmap := (k, v) :: m

def lookupMap (m : Cmap) (k : Nat) : Option Text :=
  (m.find? (fun p => p.1 == k)).map Prod.snd

/-! ### Primitives (`pdf::primitive::Primitive`), restricted to the
variants the extractor inspects -/

inductive Prim where
  | str (data : List Nat)
  | arr (elems : List Prim)
  | name (s : String)
  | num (n : Int)
  | other

/-- `Primitive::as_string().unwrap()`: `none` = panic. -/
def as_string : Prim → Option (List Nat)
  | .str d => some d
  | _ => none

/-- `Primitive::as_name().unwrap()`: `none` = panic. -/
def as_name : Prim → Option String
  | .name s => some s
  | _ => none

/-- `u16::from_be_bytes(data.try_into().unwrap())`: the `try_into`
unwrap panics unless the byte string is exactly 2 bytes long. -/
def beU16 : List Nat → Option Nat
  | [a, b] => some (a * 256 + b)
  | _ => none

/-- `*unicode_data.last_mut().unwrap() += 1`: panics on an empty vector,
otherwise increments the last byte (wrapping modulo 256, release
semantics), never carrying into preceding bytes. -/
def incLast : List Nat → Option (List Nat)
  | [] => none
  | [b] => some [(b + 1) % 256]
  | b :: rest => (incLast rest).map (fun l => b :: l)

/-- `cid_start..=cid_end` as a list ([] when start exceeds end). -/
def rangeList (a b : Nat) : List Nat := List.range' a (b + 1 - a)

/-! ### `parse_cmap` (pdf_parser.rs lines 88-153)

The body of the single-string `bfrange` arm (lines 122-126): for each
code in the range, decode the current target bytes, insert, then bump
the target's last byte. -/

def bfrangeStrLoop : List Nat → List Nat → Cmap → Option Cmap
  | [], _, m => some m
  | cid :: rest, target, m =>
    match utf16be_to_string target with
    | none => none
    | some u =>
      match incLast target with
      | none => none
      | some t' => bfrangeStrLoop rest t' (insertMap m cid u)

/-- Single-string `bfrange` triple processing (start code, end code,
target byte string). -/
def processBfrangeStr (cs ce : Nat) (target : List Nat) (m : Cmap) :
    Option Cmap :=
  bfrangeStrLoop (rangeList cs ce) target m

/-- The body of the array-form `bfrange` arm (lines 138-142), after the
zip has paired codes with array entries. -/
def bfrangeArrLoop : List (Nat × Prim) → Cmap → Option Cmap
  | [], m => some m
  | (cid, p) :: rest, m =>
    match as_string p with
    | none => none
    | some s =>
      match utf16be_to_string s with
      | none => none
      | some u => bfrangeArrLoop rest (insertMap m cid u)

/-- Array-form `bfrange` triple processing:
`(cid_start..=cid_end).zip(unicode_data_arr)` truncates to the shorter
side. -/
def processBfrangeArr (cs ce : Nat) (items : List Prim) (m : Cmap) :
    Option Cmap :=
  bfrangeArrLoop ((rangeList cs ce).zip items) m

/-! ### The CMap token stream

`parse_cmap` interleaves `lexer.next()` (keywords) with
`parse_with_lexer` (primitives) over one byte stream.  The pdf crate's
lexer is external to this repository, so the stream is modelled
abstractly: a list of events, each either a keyword substring returned
by `lexer.next()` or the result of one `parse_with_lexer` call
(`none` = parse error). -/

inductive Ev where
  | beginbfchar
  | beginbfrange
  | endcmap
  | word (s : String)
  | prim (p : Option Prim)

/-! `parse_cmap`'s outer `while let Ok(substr) = lexer.next()` loop and
its two inner block loops (lines 92-150), written with the inner loops
returning control to the outer loop when a pair or triple fails to
parse as the expected shapes (Rust's `break`).  `none` models a panic.

* `parse_cmap_loop`: dispatch on the keyword, stop at `endcmap` or at
  end of input, skip other words.
* `bfcharLoop` (lines 94-105): read (string, string) pairs, inserting
  one mapping each; anything else ends the block.
* `bfrangeLoop` (lines 106-146): read (string, string, target) triples
  with the single-string and the array target forms; anything else ends
  the block. -/
mutual

def parse_cmap_loop : List Ev → Cmap → Option Cmap
  | [], m => some m
  | .beginbfchar :: rest, m => bfcharLoop rest m
  | .beginbfrange :: rest, m => bfrangeLoop rest m
  | .endcmap :: _, m => some m
  | _ :: rest, m => parse_cmap_loop rest m
termination_by evs _ => (evs.length, 0)

def bfcharLoop : List Ev → Cmap → Option Cmap
  | .prim (some (.str cid_data)) :: .prim (some (.str unicode_data)) :: rest, m =>
    match beU16 cid_data with
    | none => none
    | some cid =>
      match utf16be_to_string unicode_data with
      | none => none
      | some unicode => bfcharLoop rest (insertMap m cid unicode)
  | evs, m => parse_cmap_loop evs m
termination_by evs _ => (evs.length, 1)

def bfrangeLoop : List Ev → Cmap → Option Cmap
  | .prim (some (.str cid_start_data)) :: .prim (some (.str cid_end_data)) ::
      .prim (some (.str unicode_data)) :: rest, m =>
    match beU16 cid_start_data with
    | none => none
    | some cid_start =>
      match beU16 cid_end_data with
      | none => none
      | some cid_end =>
        match processBfrangeStr cid_start cid_end unicode_data m with
        | none => none
        | some m' => bfrangeLoop rest m'
  | .prim (some (.str cid_start_data)) :: .prim (some (.str cid_end_data)) ::
      .prim (some (.arr unicode_data_arr)) :: rest, m =>
    match beU16 cid_start_data with
    | none => none
    | some cid_start =>
      match beU16 cid_end_data with
      | none => none
      | some cid_end =>
        match processBfrangeArr cid_start cid_end unicode_data_arr m with
        | none => none
        | some m' => bfrangeLoop rest m'
  | evs, m => parse_cmap_loop evs m
termination_by evs _ => (evs.length, 1)

end

/-- `parse_cmap` (lines 88-153): fold the token stream into the map,
starting empty; `none` when the Rust code panics. -/
def parse_cmap (evs : List Ev) : Option Cmap := parse_cmap_loop evs []

/-! ### Fonts, the cache (pdf_parser.rs lines 155-178) and the text
decoder `add_primitive` (lines 180-214) -/

/-- `pdf::encoding::BaseEncoding`, as far as the extractor inspects it:
the match at line 185 only distinguishes `IdentityH` from everything
else, so all other variants carry an identifying tag. -/
inductive BaseEnc where
  | identityH
  | otherEnc (tag : String)

/-- The font's encoding descriptor; the code reads only its `base`. -/
structure Encoding where
  base : BaseEnc

/-- A resolved font object, as far as the extractor inspects it: its
`name`, its optional encoding descriptor (`font.encoding()`), and its
optional `ToUnicode` stream, given as the CMap token stream of its
decompressed data (`font.to_unicode()` + `.data()`). -/
structure Font where
  name : String
  encoding : Option Encoding
  toUnicode : Option (List Ev)

/-- `FontInfo`: a font paired with its decoded CMap. -/
structure FontInfo where
  font : Font
  cmap : Cmap

/-- The per-page font cache: `HashMap<String, FontInfo>`, modelled like
`Cmap` as a prepend-insert association list. -/
structure Cache where
  fonts : List (String × FontInfo)

/-- `Cache::new`. -/
def Cache.new : Cache := ⟨[]⟩

/-- `Cache::add_font` (lines 168-174): a font without a `ToUnicode`
stream is skipped; otherwise its CMap is parsed (`none` when that
panics) and the entry stored under `name`. -/
def Cache.add_font (c : Cache) (name : String) (font : Font) : Option Cache :=
  match font.toUnicode with
  | none => some c
  | some evs =>
    match parse_cmap evs with
    | none => none
    | some cmap => some ⟨(name, ⟨font, cmap⟩) :: c.fonts⟩

/-- `Cache::get_font` (lines 175-177). -/
def Cache.get_font (c : Cache) (name : String) : Option FontInfo :=
  (c.fonts.find? (fun p => p.1 == name)).map Prod.snd

/-- Overlapping sliding 2-byte windows: `data.as_bytes().windows(2)`
at line 187, each window converted by `u16::from_be_bytes` (the
`try_into().unwrap()` cannot fail: every window has exactly 2 bytes). -/
def windows2 : List Nat → List Nat
  | a :: b :: rest => (a * 256 + b) :: windows2 (b :: rest)
  | _ => []

mutual
/-- `add_primitive` (lines 180-214): decode one operand into the output
accumulator using the current font's encoding and CMap. -/
def add_primitive (p : Prim) (out : Text) (info : FontInfo) : Text :=
  match p with
  | .str data =>
    match info.font.encoding with
    | none => out
    | some encoding =>
      match encoding.base with
      | .identityH =>
        (windows2 data).foldl
          (fun o cp =>
            match lookupMap info.cmap cp with
            | some s => o ++ s
            | none => o) out ++ [10]
      | .otherEnc _ =>
        data.foldl
          (fun o b =>
            match lookupMap info.cmap b with
            | some s => o ++ s
            | none => o ++ [b]) out
  | .arr a => add_primitive_list a out info
  | _ => out

/-- The `Primitive::Array` arm of `add_primitive` (lines 207-211):
recurse into each element in order. -/
def add_primitive_list (ps : List Prim) (out : Text) (info : FontInfo) : Text :=
  match ps with
  | [] => out
  | p :: rest => add_primitive_list rest (add_primitive p out info) info
end

/-! ### The content-stream interpreter (`read_pdf`, lines 16-78),
modelled for a single page -/

/-- A named graphics state, as far as the extractor inspects it: an
optional font selection (`gs.font`), given already resolved through
`file.get`. -/
structure GState where
  font : Option Font

/-- A page's resource dictionary: the named font table and the named
graphics-state table. -/
structure Resources where
  fonts : List (String × Font)
  graphics_states : List (String × GState)

/-- One content-stream operation: operator plus ordered operands. -/
structure Operation where
  operator : String
  operands : List Prim

/-- The interpreter's mutable state: the current font (a cache lookup
result) and the output accumulator. -/
structure PState where
  current_font : Option FontInfo
  out : Text

/-- Cache population from the page's font resource table (lines 25-27);
`none` when `add_font` panics inside `parse_cmap`. -/
def addResourceFonts : List (String × Font) → Cache → Option Cache
  | [], c => some c
  | (name, font) :: rest, c =>
    match c.add_font name font with
    | none => none
    | some c' => addResourceFonts rest c'

/-- Cache population from the graphics states (lines 28-33): a state
selecting a font adds it keyed by the font's own name. -/
def addGsFonts : List (String × GState) → Cache → Option Cache
  | [], c => some c
  | (_, gs) :: rest, c =>
    match gs.font with
    | none => addGsFonts rest c
    | some font =>
      match c.add_font font.name font with
      | none => none
      | some c' => addGsFonts rest c'

/-- Build the page's font cache (lines 22-33). -/
def buildCache (res : Resources) : Option Cache :=
  (addResourceFonts res.fonts Cache.new).bind
    (fun c => addGsFonts res.graphics_states c)

/-- One step of the operator loop (lines 42-71); `none` when the Rust
code panics (`operands[0]` out of bounds, `as_name().unwrap()`, or a
graphics-state name missing from the table). -/
def step (res : Resources) (cache : Cache) (st : PState) (op : Operation) :
    Option PState :=
  if op.operator = "gs" then
    match op.operands.head? with
    | none => none
    | some p =>
      match as_name p with
      | none => none
      | some nm =>
        match (res.graphics_states.find? (fun q => q.1 == nm)).map Prod.snd with
        | none => none
        | some gs =>
          match gs.font with
          | none => some st
          | some font => some ⟨cache.get_font font.name, st.out⟩
  else if op.operator = "Tf" then
    match op.operands.head? with
    | none => none
    | some p =>
      match as_name p with
      | none => none
      | some font_name => some ⟨cache.get_font font_name, st.out⟩
  else if op.operator = "Tj" ∨ op.operator = "TJ" ∨ op.operator = "BT" then
    match st.current_font with
    | none => some st
    | some font => some ⟨st.current_font, add_primitive_list op.operands st.out font⟩
  else if op.operator = "Td" ∨ op.operator = "TD" ∨ op.operator = "T*" then
    some ⟨st.current_font, st.out ++ [10]⟩
  else some st

/-- The operator loop over a page's content stream. -/
def runOps (res : Resources) (cache : Cache) :
    List Operation → PState → Option PState
  | [], st => some st
  | op :: rest, st =>
    match step res cache st op with
    | none => none
    | some st' => runOps res cache rest st'

/-- Process one page (the body of the `for page in file.pages()` loop of
`read_pdf`): build the cache, start with no current font, run the
operations, return the accumulated text. -/
def readPage (res : Resources) (ops : List Operation) : Option Text :=
  (buildCache res).bind
    (fun cache => (runOps res cache ops ⟨none, []⟩).map PState.out)

/-! ### Derived notions used only in theorem statements -/

/-- `n` applications of the last-byte increment. -/
def repIncLast : Nat → List Nat → Option (List Nat)
  | 0, t => some t
  | n + 1, t => (incLast t).bind (repIncLast n)

/-- The number of codes in `cid_start..=cid_end`. -/
def rangeLen (cs ce : Nat) : Nat := ce + 1 - cs

/-- Modelled from the spec (section 4.4, fallback path), for comparison
with `add_primitive`: for each raw byte, look it up as a zero-extended
16-bit code in the CMap; if present append the mapped string, otherwise
append the byte reinterpreted directly as a Unicode scalar. -/
def specFallbackDecode (cmap : Cmap) (data : List Nat) : Text :=
  data.flatMap (fun b =>
    match lookupMap cmap b with
    | some s => s
    | none => [b])

/-- The cache holds an entry keyed by `k`. -/
def Cache.containsKey (c : Cache) (k : String) : Prop :=
  ∃ fi, (k, fi) ∈ c.fonts

/-! ## Theorems -/

theorem lookupMap_insert_self (m : Cmap) (k : Nat) (v : Text) :
    lookupMap (insertMap m k v) k = some v := by
  simp [lookupMap, insertMap]

theorem lookupMap_insert_ne (m : Cmap) (k : Nat) (v : Text) (k' : Nat)
    (h : k' ≠ k) : lookupMap (insertMap m k v) k' = lookupMap m k' := by
  unfold lookupMap insertMap
  rw [List.find?_cons_of_neg]
  simp
  exact fun hh => h hh.symm

/-- C1 (code_bug): the claim reads the Identity-H path as consecutive
non-overlapping 2-byte windows, but `data.as_bytes().windows(2)` at
line 187 yields *overlapping* sliding windows.  On the 4-byte string
`00 41 00 41` under a CMap mapping 0x0041 to "A" and 0x4100 to "X" the
code produces "AXA\n" (scalars [65, 88, 65, 10]) because the middle,
overlapping window forms the code 0x4100; the claim's non-overlapping
reading yields "AA\n".  The claim's own 2-byte example does hold (a
2-byte string has a single window): `00 41` with 0x0041 mapped to "A"
gives "A\n". -/
theorem c1_identityH_overlapping_windows :
    windows2 [0x00, 0x41, 0x00, 0x41] = [0x0041, 0x4100, 0x0041] ∧
    add_primitive (.str [0x00, 0x41, 0x00, 0x41]) []
      ⟨⟨"F0", some ⟨.identityH⟩, none⟩, [(0x4100, [0x58]), (0x0041, [0x41])]⟩
      = [0x41, 0x58, 0x41, 10] ∧
    add_primitive (.str [0x00, 0x41]) []
      ⟨⟨"F0", some ⟨.identityH⟩, none⟩, [(0x0041, [0x41])]⟩
      = [0x41, 10] :=
  ⟨rfl, rfl, rfl⟩

/-- C6: a `Tj`, `TJ` or `BT` operator processed while no current font
is set (in particular before any `Tf` or `gs`, since the interpreter
starts with no current font) leaves the interpreter state — and hence
the output accumulator — unchanged, and does not panic. -/
theorem c6_text_op_without_font_is_noop
    (res : Resources) (cache : Cache) (st : PState) (op : Operation)
    (hfont : st.current_font = none)
    (hop : op.operator = "Tj" ∨ op.operator = "TJ" ∨ op.operator = "BT") :
    step res cache st op = some st := by
  rcases hop with h | h | h <;> simp [step, h, hfont]

theorem c6_witness :
    step ⟨[], []⟩ ⟨[]⟩ ⟨none, [72]⟩ ⟨"Tj", [.str [66]]⟩ = some ⟨none, [72]⟩ :=
  c6_text_op_without_font_is_noop ⟨[], []⟩ ⟨[]⟩ ⟨none, [72]⟩
    ⟨"Tj", [.str [66]]⟩ rfl (Or.inl rfl)

/-- C7: a string operand decoded under a font with no encoding
descriptor appends nothing to the output and does not panic: the
operand is dropped entirely. -/
theorem c7_no_encoding_drops_operand
    (info : FontInfo) (data : List Nat) (out : Text)
    (henc : info.font.encoding = none) :
    add_primitive (.str data) out info = out := by
  simp [add_primitive, henc]

theorem c7_witness :
    add_primitive (.str [65, 66]) [72] ⟨⟨"F1", none, none⟩, [(65, [65])]⟩ = [72] :=
  c7_no_encoding_drops_operand ⟨⟨"F1", none, none⟩, [(65, [65])]⟩ [65, 66] [72] rfl

/-- C10: a single-string `bfrange` triple whose target string is empty
panics (`none`): the last-byte increment (`last_mut().unwrap()`) runs
after every insertion, including the final one, so even a one-code
range hits the unwrap on the empty vector. -/
theorem c10_empty_target_bfrange_panics
    (cs ce : Nat) (m : Cmap) (h : cs ≤ ce) :
    processBfrangeStr cs ce [] m = none := by
  have h1 : ce + 1 - cs = (ce - cs) + 1 := by omega
  rw [processBfrangeStr, rangeList, h1, List.range'_succ]
  simp [bfrangeStrLoop, utf16be_to_string, toU16s, decodeUtf16, incLast]

theorem c10_witness : processBfrangeStr 65 65 [] [(1, [2])] = none :=
  c10_empty_target_bfrange_panics 65 65 [(1, [2])] (by decide)

theorem foldl_fallback_append (cmap : Cmap) (data : List Nat) (out : Text) :
    data.foldl (fun o b =>
      match lookupMap cmap b with
      | some s => o ++ s
      | none => o ++ [b]) out = out ++ specFallbackDecode cmap data := by
  induction data generalizing out with
  | nil => simp [specFallbackDecode]
  | cons b rest ih =>
    rw [List.foldl_cons, ih]
    cases h : lookupMap cmap b <;>
      simp [specFallbackDecode, List.flatMap_cons, h]

/-- C5: a string operand decoded under a font whose encoding is present
but not Identity-H appends, for each raw byte, the CMap entry for the
zero-extended 16-bit code when present and otherwise the byte itself
reinterpreted as a Unicode scalar; no trailing newline is appended
(the result is exactly `out ++ specFallbackDecode`). -/
theorem c5_fallback_decoding
    (info : FontInfo) (data : List Nat) (out : Text) (e : Encoding)
    (henc : info.font.encoding = some e) (hne : e.base ≠ .identityH) :
    add_primitive (.str data) out info = out ++ specFallbackDecode info.cmap data := by
  match e, henc with
  | ⟨.identityH⟩, _ => exact absurd rfl hne
  | ⟨.otherEnc tag⟩, henc =>
    simp only [add_primitive, henc]
    exact foldl_fallback_append info.cmap data out

theorem c5_witness :
    add_primitive (.str [0x42]) []
      ⟨⟨"F2", some ⟨.otherEnc "WinAnsiEncoding"⟩, none⟩, [(65, [65])]⟩ = [0x42] := by
  have h := c5_fallback_decoding
    ⟨⟨"F2", some ⟨.otherEnc "WinAnsiEncoding"⟩, none⟩, [(65, [65])]⟩
    [0x42] [] ⟨.otherEnc "WinAnsiEncoding"⟩ rfl (by simp)
  simpa [specFallbackDecode, lookupMap] using h

/-- C3 counterexample: a font with no `ToUnicode` stream gets no cache
entry, and a `Tj` under its name then produces NO output — the empty
string, not the raw-byte decode `[0x42]` the claim promises. -/
theorem c3_counterexample :
    readPage ⟨[("F", ⟨"F", some ⟨.otherEnc "WinAnsiEncoding"⟩, none⟩)], []⟩
      [⟨"Tf", [.name "F"]⟩, ⟨"Tj", [.str [0x42]]⟩] = some [] ∧
    ([] : Text) ≠ [0x42] :=
  ⟨rfl, by decide⟩

/-- C3 amended: a font with no `ToUnicode` stream gets no cache entry,
and text subsequently shown under that font's name produces no output
at all: `Tf` under the name finds nothing in the cache, so the current
font stays unset and `Tj` appends nothing. -/
theorem c3_no_tounicode_font_yields_no_output
    (n : String) (f : Font) (hf : f.toUnicode = none) (args : List Prim) :
    Cache.add_font Cache.new n f = some Cache.new ∧
    readPage ⟨[(n, f)], []⟩ [⟨"Tf", [.name n]⟩, ⟨"Tj", args⟩] = some [] := by
  constructor
  · simp [Cache.add_font, hf]
  · simp [readPage, buildCache, addResourceFonts, addGsFonts, Cache.add_font,
      hf, runOps, step, Cache.get_font, as_name, Cache.new]

theorem bfrangeStrLoop_lookup_notin (ks : List Nat) :
    ∀ t m m', bfrangeStrLoop ks t m = some m' →
      ∀ k, k ∉ ks → lookupMap m' k = lookupMap m k := by
  induction ks with
  | nil =>
    intro t m m' h k _
    simp only [bfrangeStrLoop] at h
    injection h with h
    rw [h]
  | cons c rest ih =>
    intro t m m' h k hk
    simp only [List.mem_cons, not_or] at hk
    obtain ⟨hkc, hkrest⟩ := hk
    cases hu : utf16be_to_string t with
    | none => simp [bfrangeStrLoop, hu] at h
    | some u =>
      cases ht : incLast t with
      | none => simp [bfrangeStrLoop, hu, ht] at h
      | some t' =>
        simp only [bfrangeStrLoop, hu, ht] at h
        rw [ih t' _ m' h k hkrest, lookupMap_insert_ne m c u k hkc]

theorem bfrangeStrLoop_lookup_get (ks : List Nat) :
    ∀ t m m', ks.Nodup → bfrangeStrLoop ks t m = some m' →
      ∀ i (hi : i < ks.length),
        lookupMap m' ks[i] = (repIncLast i t).bind utf16be_to_string := by
  induction ks with
  | nil => intro t m m' _ _ i hi; exact absurd hi (by simp)
  | cons c rest ih =>
    intro t m m' hnd h i hi
    cases hu : utf16be_to_string t with
    | none => simp [bfrangeStrLoop, hu] at h
    | some u =>
      cases ht : incLast t with
      | none => simp [bfrangeStrLoop, hu, ht] at h
      | some t' =>
        simp only [bfrangeStrLoop, hu, ht] at h
        match i with
        | 0 =>
          have hc : c ∉ rest := (List.nodup_cons.mp hnd).1
          rw [List.getElem_cons_zero,
            bfrangeStrLoop_lookup_notin rest t' _ m' h c hc,
            lookupMap_insert_self]
          simp [repIncLast, hu]
        | j + 1 =>
          rw [List.getElem_cons_succ]
          rw [ih t' _ m' (List.nodup_cons.mp hnd).2 h j
            (by simpa using Nat.lt_of_succ_lt_succ hi)]
          simp [repIncLast, ht]

/-- C2: a single-string `bfrange` triple maps the start code to the
UTF-16BE decode of the target string, and each subsequent code up to
the end code to the decode of the target after one last-byte increment
per step (no carry into preceding bytes).  Concretely, the block
`<0041> <0043> <0041>` maps 0x41, 0x42, 0x43 to "A", "B", "C", and a
target ending in 0xFF wraps its last byte without touching the byte
before it. -/
theorem c2_bfrange_single_string_last_byte_increment :
    (∀ cs ce target m m' cid, processBfrangeStr cs ce target m = some m' →
      cs ≤ cid → cid ≤ ce →
      lookupMap m' cid = (repIncLast (cid - cs) target).bind utf16be_to_string) ∧
    (∃ m', processBfrangeStr 0x41 0x43 [0x00, 0x41] [] = some m' ∧
      lookupMap m' 0x41 = some [0x41] ∧ lookupMap m' 0x42 = some [0x42] ∧
      lookupMap m' 0x43 = some [0x43]) ∧
    (∃ m', processBfrangeStr 1 2 [0x00, 0xFF] [] = some m' ∧
      lookupMap m' 1 = some [0xFF] ∧ lookupMap m' 2 = some [0x00]) := by
  refine ⟨?_, ⟨_, rfl, by decide, by decide, by decide⟩,
    ⟨_, rfl, by decide, by decide⟩⟩
  intro cs ce target m m' cid h h1 h2
  have hlen : cid - cs < (rangeList cs ce).length := by
    simp only [rangeList, List.length_range']
    omega
  have hget : (rangeList cs ce)[cid - cs] = cid := by
    simp only [rangeList, List.getElem_range']
    omega
  have hres := bfrangeStrLoop_lookup_get (rangeList cs ce) target m m'
    (List.nodup_range' cs (ce + 1 - cs)) h (cid - cs) hlen
  rwa [hget] at hres

theorem c2_witness :
    lookupMap [(0x43, [0x43]), (0x42, [0x42]), (0x41, [0x41])] 0x42 =
      (repIncLast 1 [0x00, 0x41]).bind utf16be_to_string :=
  c2_bfrange_single_string_last_byte_increment.1 0x41 0x43 [0x00, 0x41] []
    [(0x43, [0x43]), (0x42, [0x42]), (0x41, [0x41])] 0x42
    (by decide) (by decide) (by decide)

theorem c3_amended_witness :
    Cache.add_font Cache.new "F" ⟨"F", some ⟨.otherEnc "W"⟩, none⟩ = some Cache.new ∧
    readPage ⟨[("F", ⟨"F", some ⟨.otherEnc "W"⟩, none⟩)], []⟩
      [⟨"Tf", [.name "F"]⟩, ⟨"Tj", [.str [66]]⟩] = some [] :=
  c3_no_tounicode_font_yields_no_output "F" ⟨"F", some ⟨.otherEnc "W"⟩, none⟩
    rfl [.str [66]]

theorem beU16_none_of_length_ne_two (l : List Nat) (h : l.length ≠ 2) :
    beU16 l = none := by
  match l with
  | [] => rfl
  | [_] => rfl
  | [_, _] => exact absurd rfl h
  | _ :: _ :: _ :: _ => rfl

/-- C8: the CMap parser is not total: a `bfchar` pair whose code string
is not exactly 2 bytes, or a `bfrange` triple whose start-code or
end-code string is not exactly 2 bytes, makes `parse_cmap` panic
(`u16::from_be_bytes(...try_into().unwrap())`) instead of abandoning
the block as it does for a wrongly-shaped primitive. -/
theorem c8_cmap_code_length_panics :
    (∀ cid_data unicode_data rest m, cid_data.length ≠ 2 →
      parse_cmap_loop (.beginbfchar :: .prim (some (.str cid_data)) ::
        .prim (some (.str unicode_data)) :: rest) m = none) ∧
    (∀ s e t rest m, s.length ≠ 2 →
      parse_cmap_loop (.beginbfrange :: .prim (some (.str s)) ::
        .prim (some (.str e)) :: .prim (some (.str t)) :: rest) m = none) ∧
    (∀ a b e t rest m, e.length ≠ 2 →
      parse_cmap_loop (.beginbfrange :: .prim (some (.str [a, b])) ::
        .prim (some (.str e)) :: .prim (some (.str t)) :: rest) m = none) := by
  refine ⟨?_, ?_, ?_⟩
  · intro cid_data unicode_data rest m h
    simp [parse_cmap_loop, bfcharLoop, beU16_none_of_length_ne_two _ h]
  · intro s e t rest m h
    simp [parse_cmap_loop, bfrangeLoop, beU16_none_of_length_ne_two _ h]
  · intro a b e t rest m h
    have h1 : beU16 [a, b] = some (a * 256 + b) := rfl
    simp [parse_cmap_loop, bfrangeLoop, h1,
      beU16_none_of_length_ne_two _ h]

theorem c8_witness :
    parse_cmap_loop [.beginbfchar, .prim (some (.str [0])),
      .prim (some (.str [0, 65]))] [] = none ∧
    parse_cmap_loop [.beginbfrange, .prim (some (.str [0, 65, 0])),
      .prim (some (.str [0, 66])), .prim (some (.str [0, 65]))] [] = none ∧
    parse_cmap_loop [.beginbfrange, .prim (some (.str [0, 65])),
      .prim (some (.str [])), .prim (some (.str [0, 65]))] [] = none :=
  ⟨c8_cmap_code_length_panics.1 [0] [0, 65] [] [] (by decide),
   c8_cmap_code_length_panics.2.1 [0, 65, 0] [0, 66] [0, 65] [] [] (by decide),
   c8_cmap_code_length_panics.2.2 0 65 [] [0, 65] [] [] (by decide)⟩

theorem add_font_containsKey (c : Cache) (n : String) (f : Font) (c' : Cache)
    (h : c.add_font n f = some c') (k : String) (hk : c'.containsKey k) :
    k = n ∨ c.containsKey k := by
  cases hf : f.toUnicode with
  | none =>
    simp only [Cache.add_font, hf] at h
    injection h with h
    rw [← h] at hk
    exact Or.inr hk
  | some evs =>
    cases hp : parse_cmap evs with
    | none =>
      simp only [Cache.add_font, hf, hp] at h
      exact Option.noConfusion h
    | some cmap =>
      simp only [Cache.add_font, hf, hp] at h
      injection h with h
      obtain ⟨fi, hmem⟩ := hk
      rw [← h] at hmem
      rcases List.mem_cons.mp hmem with heq | hmem'
      · exact Or.inl (congrArg Prod.fst heq)
      · exact Or.inr ⟨fi, hmem'⟩

theorem add_font_mono (c : Cache) (n : String) (f : Font) (c' : Cache)
    (h : c.add_font n f = some c') (k : String) (hk : c.containsKey k) :
    c'.containsKey k := by
  cases hf : f.toUnicode with
  | none =>
    simp only [Cache.add_font, hf] at h
    injection h with h
    rwa [← h]
  | some evs =>
    cases hp : parse_cmap evs with
    | none =>
      simp only [Cache.add_font, hf, hp] at h
      exact Option.noConfusion h
    | some cmap =>
      simp only [Cache.add_font, hf, hp] at h
      injection h with h
      obtain ⟨fi, hmem⟩ := hk
      exact ⟨fi, by rw [← h]; exact List.mem_cons_of_mem _ hmem⟩

theorem add_font_self (c : Cache) (n : String) (f : Font) (c' : Cache)
    (h : c.add_font n f = some c') (evs : List Ev)
    (hf : f.toUnicode = some evs) : c'.containsKey n := by
  cases hp : parse_cmap evs with
  | none =>
    simp only [Cache.add_font, hf, hp] at h
    exact Option.noConfusion h
  | some cmap =>
    simp only [Cache.add_font, hf, hp] at h
    injection h with h
    exact ⟨⟨f, cmap⟩, by rw [← h]; exact List.mem_cons_self _ _⟩

theorem addGsFonts_mono (gsList : List (String × GState)) :
    ∀ c c', addGsFonts gsList c = some c' →
      ∀ k, c.containsKey k → c'.containsKey k := by
  induction gsList with
  | nil =>
    intro c c' h k hk
    simp only [addGsFonts] at h
    injection h with h
    rwa [← h]
  | cons g rest ih =>
    intro c c' h k hk
    obtain ⟨gname, gs⟩ := g
    cases hgf : gs.font with
    | none =>
      simp only [addGsFonts, hgf] at h
      exact ih c c' h k hk
    | some f =>
      cases ha : c.add_font f.name f with
      | none =>
        simp only [addGsFonts, hgf, ha] at h
        exact Option.noConfusion h
      | some c1 =>
        simp only [addGsFonts, hgf, ha] at h
        exact ih c1 c' h k (add_font_mono c f.name f c1 ha k hk)

theorem get_font_isSome_iff_containsKey (cache : Cache) (k : String) :
    (cache.get_font k).isSome ↔ cache.containsKey k := by
  constructor
  · intro h
    cases hf : cache.fonts.find? (fun p => p.1 == k) with
    | none => simp [Cache.get_font, hf] at h
    | some p =>
      have hmem := List.mem_of_find?_eq_some hf
      have hp : p.1 = k := by simpa using List.find?_some hf
      exact ⟨p.2, by rw [← hp]; exact hmem⟩
  · rintro ⟨fi, hmem⟩
    cases hf : cache.fonts.find? (fun p => p.1 == k) with
    | none =>
      exact absurd (by simp : ((k, fi).1 == k) = true)
        (List.find?_eq_none.mp hf _ hmem)
    | some p => simp [Cache.get_font, hf]

/-- C4: (i) keys added during the graphics-state pass of cache
population are always the selected font's own name, never the
graphics-state name; (ii) a graphics state that selects a font and
whose `ToUnicode` stream is present does get its font stored under the
font's own name; (iii) the `gs` operator resolves its graphics state's
font in the cache by the font's own name; (iv) a cache lookup succeeds
exactly when the cache holds an entry keyed by that name — so a
`gs`-selected font is found iff the cache holds an entry keyed by the
font's own name. -/
theorem c4_gs_fonts_keyed_by_font_name :
    (∀ (gsList : List (String × GState)) (c c' : Cache),
      addGsFonts gsList c = some c' → ∀ k, c'.containsKey k →
        c.containsKey k ∨
        ∃ gname gs f, (gname, gs) ∈ gsList ∧ gs.font = some f ∧ f.name = k) ∧
    (∀ (gsList : List (String × GState)) (c c' : Cache),
      addGsFonts gsList c = some c' →
      ∀ gname gs f evs, (gname, gs) ∈ gsList → gs.font = some f →
        f.toUnicode = some evs → c'.containsKey f.name) ∧
    (∀ (res : Resources) (cache : Cache) (st : PState) (nm : String)
      (gs : GState) (f : Font),
      (res.graphics_states.find? (fun q => q.1 == nm)).map Prod.snd = some gs →
      gs.font = some f →
      step res cache st ⟨"gs", [.name nm]⟩ =
        some ⟨cache.get_font f.name, st.out⟩) ∧
    (∀ (cache : Cache) (k : String),
      (cache.get_font k).isSome ↔ cache.containsKey k) := by
  refine ⟨?_, ?_, ?_, get_font_isSome_iff_containsKey⟩
  · intro gsList
    induction gsList with
    | nil =>
      intro c c' h k hk
      simp only [addGsFonts] at h
      injection h with h
      rw [← h] at hk
      exact Or.inl hk
    | cons g rest ih =>
      intro c c' h k hk
      obtain ⟨gname, gs⟩ := g
      cases hgf : gs.font with
      | none =>
        simp only [addGsFonts, hgf] at h
        rcases ih c c' h k hk with hc | ⟨gn, g1, f1, hmem, hf1, hn1⟩
        · exact Or.inl hc
        · exact Or.inr ⟨gn, g1, f1, List.mem_cons_of_mem _ hmem, hf1, hn1⟩
      | some f =>
        cases ha : c.add_font f.name f with
        | none =>
          simp only [addGsFonts, hgf, ha] at h
          exact Option.noConfusion h
        | some c1 =>
          simp only [addGsFonts, hgf, ha] at h
          rcases ih c1 c' h k hk with hc1 | ⟨gn, g1, f1, hmem, hf1, hn1⟩
          · rcases add_font_containsKey c f.name f c1 ha k hc1 with hkn | hck
            · exact Or.inr ⟨gname, gs, f, List.mem_cons_self _ _, hgf, hkn.symm⟩
            · exact Or.inl hck
          · exact Or.inr ⟨gn, g1, f1, List.mem_cons_of_mem _ hmem, hf1, hn1⟩
  · intro gsList
    induction gsList with
    | nil =>
      intro c c' _ gname gs f evs hmem
      exact absurd hmem (List.not_mem_nil _)
    | cons g rest ih =>
      intro c c' h gname gs f evs hmem hgsf hftu
      obtain ⟨g0, gs0⟩ := g
      rcases List.mem_cons.mp hmem with heq | hmem'
      · injection heq with h1 h2
        subst h1
        subst h2
        cases ha : c.add_font f.name f with
        | none =>
          simp only [addGsFonts, hgsf, ha] at h
          exact Option.noConfusion h
        | some c1 =>
          simp only [addGsFonts, hgsf, ha] at h
          exact addGsFonts_mono rest c1 c' h f.name
            (add_font_self c f.name f c1 ha evs hftu)
      · cases hgf0 : gs0.font with
        | none =>
          simp only [addGsFonts, hgf0] at h
          exact ih c c' h gname gs f evs hmem' hgsf hftu
        | some f0 =>
          cases ha : c.add_font f0.name f0 with
          | none =>
            simp only [addGsFonts, hgf0, ha] at h
            exact Option.noConfusion h
          | some c1 =>
            simp only [addGsFonts, hgf0, ha] at h
            exact ih c1 c' h gname gs f evs hmem' hgsf hftu
  · intro res cache st nm gs f hfind hgsf
    simp [step, as_name, hfind, hgsf]

theorem c4_witness :
    (Cache.new.containsKey "F" ∨
      ∃ gname gs f,
        (gname, gs) ∈ [("G", GState.mk (some ⟨"F", some ⟨.identityH⟩, some []⟩))] ∧
        gs.font = some f ∧ f.name = "F") ∧
    Cache.containsKey ⟨[("F", ⟨⟨"F", some ⟨.identityH⟩, some []⟩, []⟩)]⟩ "F" ∧
    step ⟨[], [("G", ⟨some ⟨"F", some ⟨.identityH⟩, some []⟩⟩)]⟩
      ⟨[("F", ⟨⟨"F", some ⟨.identityH⟩, some []⟩, []⟩)]⟩ ⟨none, []⟩
      ⟨"gs", [.name "G"]⟩ =
      some ⟨Cache.get_font ⟨[("F", ⟨⟨"F", some ⟨.identityH⟩, some []⟩, []⟩)]⟩ "F", []⟩ ∧
    ((Cache.get_font ⟨[("F", ⟨⟨"F", some ⟨.identityH⟩, some []⟩, []⟩)]⟩ "F").isSome ↔
      Cache.containsKey ⟨[("F", ⟨⟨"F", some ⟨.identityH⟩, some []⟩, []⟩)]⟩ "F") := by
  have hadd : addGsFonts [("G", ⟨some ⟨"F", some ⟨.identityH⟩, some []⟩⟩)] Cache.new =
      some ⟨[("F", ⟨⟨"F", some ⟨.identityH⟩, some []⟩, []⟩)]⟩ := by
    simp [addGsFonts, Cache.add_font, parse_cmap, parse_cmap_loop, Cache.new]
  exact ⟨c4_gs_fonts_keyed_by_font_name.1 _ _ _ hadd "F"
      ⟨⟨⟨"F", some ⟨.identityH⟩, some []⟩, []⟩, by simp⟩,
    c4_gs_fonts_keyed_by_font_name.2.1 _ _ _ hadd "G"
      ⟨some ⟨"F", some ⟨.identityH⟩, some []⟩⟩
      ⟨"F", some ⟨.identityH⟩, some []⟩ [] (by simp) rfl rfl,
    c4_gs_fonts_keyed_by_font_name.2.2.1 _ _ ⟨none, []⟩ "G"
      ⟨some ⟨"F", some ⟨.identityH⟩, some []⟩⟩
      ⟨"F", some ⟨.identityH⟩, some []⟩ (by simp) rfl,
    c4_gs_fonts_keyed_by_font_name.2.2.2 _ "F"⟩

theorem bfrangeArrLoop_lookup_notin (ps : List (Nat × Prim)) :
    ∀ m m', bfrangeArrLoop ps m = some m' →
      ∀ k, k ∉ ps.map Prod.fst → lookupMap m' k = lookupMap m k := by
  induction ps with
  | nil =>
    intro m m' h k _
    simp only [bfrangeArrLoop] at h
    injection h with h
    rw [h]
  | cons q rest ih =>
    intro m m' h k hk
    obtain ⟨cid, p⟩ := q
    simp only [List.map_cons, List.mem_cons, not_or] at hk
    obtain ⟨hkc, hkrest⟩ := hk
    cases hs : as_string p with
    | none => simp [bfrangeArrLoop, hs] at h
    | some s =>
      cases hu : utf16be_to_string s with
      | none => simp [bfrangeArrLoop, hs, hu] at h
      | some u =>
        simp only [bfrangeArrLoop, hs, hu] at h
        rw [ih _ m' h k hkrest, lookupMap_insert_ne m cid u k hkc]

theorem bfrangeArrLoop_lookup_get (ps : List (Nat × Prim)) :
    ∀ m m', (ps.map Prod.fst).Nodup → bfrangeArrLoop ps m = some m' →
      ∀ i (hi : i < ps.length),
        lookupMap m' (ps.get ⟨i, hi⟩).1 =
          (as_string (ps.get ⟨i, hi⟩).2).bind utf16be_to_string := by
  induction ps with
  | nil => intro m m' _ _ i hi; exact absurd hi (by simp)
  | cons q rest ih =>
    intro m m' hnd h i hi
    obtain ⟨cid, p⟩ := q
    cases hs : as_string p with
    | none => simp [bfrangeArrLoop, hs] at h
    | some s =>
      cases hu : utf16be_to_string s with
      | none => simp [bfrangeArrLoop, hs, hu] at h
      | some u =>
        simp only [bfrangeArrLoop, hs, hu] at h
        have hnd' : (cid :: rest.map Prod.fst).Nodup := by
          simpa using hnd
        match i with
        | 0 =>
          have hc : cid ∉ rest.map Prod.fst := (List.nodup_cons.mp hnd').1
          show lookupMap m' cid = (as_string p).bind utf16be_to_string
          rw [bfrangeArrLoop_lookup_notin rest _ m' h cid hc,
            lookupMap_insert_self, hs]
          simp [hu]
        | j + 1 =>
          exact ih _ m' (List.nodup_cons.mp hnd').2 h j
            (by simpa using Nat.lt_of_succ_lt_succ hi)

theorem bfrangeArrLoop_isSome (ps : List (Nat × Prim)) :
    ∀ m, (∀ q ∈ ps, ∃ s u, as_string q.2 = some s ∧
        utf16be_to_string s = some u) →
      (bfrangeArrLoop ps m).isSome := by
  induction ps with
  | nil => intro m _; simp [bfrangeArrLoop]
  | cons q rest ih =>
    intro m hall
    obtain ⟨cid, p⟩ := q
    obtain ⟨s, u, hs, hu⟩ := hall (cid, p) (List.mem_cons_self _ _)
    simp only [bfrangeArrLoop, hs, hu]
    exact ih _ (fun q hq => hall q (List.mem_cons_of_mem _ hq))

theorem map_fst_zip_eq_take {α β : Type} :
    ∀ (l1 : List α) (l2 : List β),
      (l1.zip l2).map Prod.fst = l1.take l2.length := by
  intro l1
  induction l1 with
  | nil => intro l2; simp
  | cons a l1' ih =>
    intro l2
    cases l2 with
    | nil => simp
    | cons b l2' => simp [List.zip_cons_cons, ih]

theorem zip_take_right_eq {α β : Type} :
    ∀ (l1 : List α) (l2 : List β), l1.zip (l2.take l1.length) = l1.zip l2 := by
  intro l1
  induction l1 with
  | nil => intro l2; simp
  | cons a l1' ih =>
    intro l2
    cases l2 with
    | nil => simp
    | cons b l2' => simp [List.zip_cons_cons, ih]

theorem mem_take_range'_lt :
    ∀ (len s n x : Nat), x ∈ (List.range' s len).take n → x < s + n := by
  intro len
  induction len with
  | zero => intro s n x hx; simp at hx
  | succ len' ih =>
    intro s n x hx
    rw [List.range'_succ] at hx
    cases n with
    | zero => simp at hx
    | succ n' =>
      rw [List.take_succ_cons] at hx
      rcases List.mem_cons.mp hx with rfl | hx'
      · omega
      · have := ih (s + 1) n' x hx'
        omega

/-- C9: the array form of `bfrange` pairs codes with array entries by a
zip, truncating to the shorter side: (i) entries beyond the range's
length are ignored outright (the result only depends on the first
`rangeLen` entries); (ii) when the range is processed successfully, the
code `cs + i` maps to the decode of the i-th array entry for every
paired index, and every code at or past `cs + items.length` is left
untouched in the map; (iii) an array of well-formed string entries
never makes the processing panic, regardless of either length. -/
theorem c9_bfrange_array_zip_truncation :
    (∀ cs ce (items : List Prim) (m : Cmap),
      processBfrangeArr cs ce items m =
        processBfrangeArr cs ce (items.take (rangeLen cs ce)) m) ∧
    (∀ cs ce (items : List Prim) (m m' : Cmap),
      processBfrangeArr cs ce items m = some m' →
      (∀ i (hi : i < items.length), i < rangeLen cs ce →
        lookupMap m' (cs + i) =
          (as_string (items.get ⟨i, hi⟩)).bind utf16be_to_string) ∧
      (∀ cid, cs + items.length ≤ cid →
        lookupMap m' cid = lookupMap m cid)) ∧
    (∀ cs ce (items : List Prim) (m : Cmap),
      (∀ p ∈ items, ∃ s u, as_string p = some s ∧
        utf16be_to_string s = some u) →
      (processBfrangeArr cs ce items m).isSome) := by
  have hlen : ∀ cs ce, (rangeList cs ce).length = rangeLen cs ce := by
    intro cs ce
    simp [rangeList, rangeLen, List.length_range']
  refine ⟨?_, ?_, ?_⟩
  · intro cs ce items m
    unfold processBfrangeArr
    rw [show items.take (rangeLen cs ce) =
      items.take (rangeList cs ce).length from by rw [hlen],
      zip_take_right_eq]
  · intro cs ce items m m' h
    constructor
    · intro i hi hirange
      have hzlen : i < ((rangeList cs ce).zip items).length := by
        rw [List.length_zip, hlen]
        exact lt_min hirange hi
      have hnd : (((rangeList cs ce).zip items).map Prod.fst).Nodup := by
        rw [map_fst_zip_eq_take]
        exact (List.take_sublist _ _).nodup (List.nodup_range' _ _)
      have hget := bfrangeArrLoop_lookup_get _ m m' hnd h i hzlen
      have h1 : (((rangeList cs ce).zip items).get ⟨i, hzlen⟩).1 = cs + i := by
        simp [List.getElem_zip, rangeList, List.getElem_range']
      have h2 : (((rangeList cs ce).zip items).get ⟨i, hzlen⟩).2 =
          items.get ⟨i, hi⟩ := by
        simp [List.getElem_zip]
      rwa [h1, h2] at hget
    · intro cid hcid
      refine bfrangeArrLoop_lookup_notin _ m m' h cid ?_
      rw [map_fst_zip_eq_take]
      intro hmem
      have := mem_take_range'_lt _ _ _ _ hmem
      omega
  · intro cs ce items m hall
    exact bfrangeArrLoop_isSome _ m
      (fun q hq => hall q.2 (List.of_mem_zip (by simpa using hq)).2)

theorem c9_witness :
    (processBfrangeArr 65 66 [.str [0, 65], .str [0, 66], .str [0, 67]] [] =
      processBfrangeArr 65 66
        ([Prim.str [0, 65], .str [0, 66], .str [0, 67]].take (rangeLen 65 66)) []) ∧
    (lookupMap [(66, [66]), (65, [65])] (65 + 1) =
      (as_string (Prim.str [0, 66])).bind utf16be_to_string ∧
     lookupMap [(66, [66]), (65, [65])] 70 = lookupMap [] 70) ∧
    (processBfrangeArr 65 70 [.str [0, 65], .str [0, 66]] []).isSome := by
  have h2 := c9_bfrange_array_zip_truncation.2.1 65 70
    [Prim.str [0, 65], .str [0, 66]] [] [(66, [66]), (65, [65])] (by decide)
  exact ⟨c9_bfrange_array_zip_truncation.1 65 66
      [.str [0, 65], .str [0, 66], .str [0, 67]] [],
    ⟨h2.1 1 (by decide) (by decide), h2.2 70 (by decide)⟩,
    c9_bfrange_array_zip_truncation.2.2 65 70 [.str [0, 65], .str [0, 66]] []
      (by intro p hp
          rcases List.mem_cons.mp hp with rfl | hp'
          · exact ⟨[0, 65], [65], rfl, rfl⟩
          · rcases List.mem_cons.mp hp' with rfl | hp''
            · exact ⟨[0, 66], [66], rfl, rfl⟩
            · exact absurd hp'' (List.not_mem_nil _))⟩

end PdfParser
